import Mathlib

/-!
# Verification of the word-list storage and conversation flow of `fan_art_roller.py`

The program is a chat bot maintaining, per user, two named word lists
("A" = fandoms, "B" = situations) in a SQLite table
`words(user_id, list_name, word)` with `PRIMARY KEY (user_id, list_name, word)`,
plus a per-user finite-state conversation ("waiting_add") for bulk-adding words.

The embedding below models the database as a list of rows (`Store`), each
storage method of class `Storage` as a pure function from the store to the
new store and return value, and the message/callback handlers as pure
functions on a global state (store + per-user session map). The SQLite
primary key is modelled by an explicit membership check in `add_word`
(the `INSERT` raises `IntegrityError` exactly when the row is present).
Randomness in `Storage.roll` (`random.choice`) is modelled by passing the
random draws as explicit natural numbers, reduced modulo the list length.
-/

/-- Python `str.strip()` with no argument: remove leading and trailing
whitespace. Defined structurally over the character list so that it
evaluates by kernel reduction (core `String.trim` agrees on the
whitespace characters relevant here but is defined by well-founded
recursion). -/
def strip (s : String) : String :=
  ⟨((s.toList.dropWhile Char.isWhitespace).reverse.dropWhile Char.isWhitespace).reverse⟩

/-- Python `str.splitlines()`: split on line boundaries (`"\n"`, `"\r\n"`,
`"\r"`), with no trailing empty line for a terminating newline and `[]`
for the empty string. (Python also splits on rarer control separators
such as `"\x0b"`; those do not occur in the properties considered.) -/
def splitlinesAux : List Char → List Char → List String
  | [], [] => []
  | [], acc => [⟨acc.reverse⟩]
  | '\r' :: '\n' :: rest, acc => ⟨acc.reverse⟩ :: splitlinesAux rest []
  | '\r' :: rest, acc => ⟨acc.reverse⟩ :: splitlinesAux rest []
  | '\n' :: rest, acc => ⟨acc.reverse⟩ :: splitlinesAux rest []
  | c :: rest, acc => splitlinesAux rest (c :: acc)

/-- Python `message.text.splitlines()`. -/
def splitlines (s : String) : List String :=
  splitlinesAux s.toList []

/-- A row of the `words` table: `(user_id, list_name, word)`.
The SQL schema declares the triple as the primary key. -/
structure Entry where
  user_id : Int
  list_name : String
  word : String
deriving DecidableEq, Repr

/-- The `words` table, as a list of rows. -/
abbrev Store := List Entry

/-- Decidability of `String` `≤` routed through the character list, so that
sorting evaluates by kernel reduction (core `String.decidableLE` is defined
by well-founded recursion on iterators and does not). -/
def strLeDec : DecidableRel ((· ≤ ·) : String → String → Prop) := fun a b =>
  decidable_of_iff (a.toList ≤ b.toList) String.le_iff_toList_le.symm

/-- `Storage.get_words`: `SELECT word FROM words WHERE user_id=? AND list_name=? ORDER BY word`.
Rows matching the user and list are projected to their word and sorted
ascending (SQLite's default BINARY collation on UTF-8 agrees with
code-point lexicographic order). -/
def get_words (st : Store) (user_id : Int) (list_name : String) : List String :=
  @List.insertionSort String (· ≤ ·) strLeDec
    ((st.filter (fun e => e.user_id == user_id && e.list_name == list_name)).map Entry.word)

/-- `Storage.add_word`: strips the word; returns `False` if the result is empty;
otherwise `INSERT`s the row, returning `False` when the primary key
`(user_id, list_name, word)` already exists (`IntegrityError`) and `True`
on success. Result is `(return value, new table)`. -/
def add_word (st : Store) (user_id : Int) (list_name : String) (word : String) :
    Bool × Store :=
  let w := strip word
  if w = "" then (false, st)
  else if (⟨user_id, list_name, w⟩ : Entry) ∈ st then (false, st)
  else (true, ⟨user_id, list_name, w⟩ :: st)

/-- `Storage.remove_word`: strips the word, `DELETE`s the matching row and
returns `rowcount > 0`, i.e. whether the row was present. -/
def remove_word (st : Store) (user_id : Int) (list_name : String) (word : String) :
    Bool × Store :=
  let w := strip word
  (decide ((⟨user_id, list_name, w⟩ : Entry) ∈ st),
   st.filter (fun e => e != ⟨user_id, list_name, w⟩))

/-- `Storage.clear_list`: `DELETE FROM words WHERE user_id=? AND list_name=?`. -/
def clear_list (st : Store) (user_id : Int) (list_name : String) : Store :=
  st.filter (fun e => !(e.user_id == user_id && e.list_name == list_name))

/-- `Storage.roll`: reads lists "A" and "B"; if either is empty returns
`(None, None)`, otherwise one `random.choice` from each. The two independent
random draws are modelled by the arbitrary naturals `ia`, `ib`, reduced
modulo the list length to index the list (every element is reachable, and
a singleton list gives a deterministic result, as with `random.choice`). -/
def roll (st : Store) (user_id : Int) (ia ib : Nat) : Option String × Option String :=
  let a := get_words st user_id "A"
  let b := get_words st user_id "B"
  if a.isEmpty || b.isEmpty then (none, none)
  else (a[ia % a.length]?, b[ib % b.length]?)

/-! ## Conversation layer

aiogram keeps, per user, an FSM state (`EditStates.waiting_add` or none)
and a data dict. `cb_add` sets the state to `waiting_add` and stores
`list_name` and `menu_message_id`; `msg_add` only fires while the state is
`waiting_add`, and clears it. We model the per-user FSM slot as an
`Option Session`: `none` is Idle, `some s` is AwaitingText with its data. -/

/-- The data stored by `cb_add` for a pending bulk-add: the target list and
the id of the menu message to edit in place when the text arrives. -/
structure Session where
  list_name : String
  menu_message_id : Int
deriving DecidableEq, Repr

/-- `cb_add` (handler of `"add:{list}"`): `state.set_state(waiting_add)` and
`state.update_data(list_name, menu_message_id)`. Any previous session of
the user is overwritten. -/
def cb_add (_prev : Option Session) (list_name : String) (menu_message_id : Int) :
    Option Session :=
  some ⟨list_name, menu_message_id⟩

/-- The per-line loop of `msg_add`: call `Storage.add_word` on each line in
order, tallying `added` (returned `True`) and `skipped` (returned `False`).
Result: `(final table, added, skipped)`. -/
def addLoop (user_id : Int) (list_name : String) :
    Store → List String → Store × Nat × Nat
  | st, [] => (st, 0, 0)
  | st, line :: rest =>
    let r := add_word st user_id list_name line
    let t := addLoop user_id list_name r.2 rest
    if r.1 then (t.1, t.2.1 + 1, t.2.2) else (t.1, t.2.1, t.2.2 + 1)

/-- The line pre-processing of `msg_add`:
`lines = [line.strip() for line in message.text.splitlines()]` then
`lines = [line for line in lines if line]`. -/
def surviving_lines (text : String) : List String :=
  ((splitlines text).map strip).filter (fun s => s ≠ "")

/-- The render outcome of `msg_add`: which message id was edited, for which
list the editor view was drawn, and the reported counts. -/
structure BulkReport where
  list_name : String
  anchor : Int
  added : Nat
  skipped : Nat
deriving DecidableEq, Repr

/-- `msg_add` (handler registered on `EditStates.waiting_add`): fires only
while a session is live; reads `list_name` and `menu_message_id` from the
session data, processes the surviving lines through `Storage.add_word`,
clears the state, and edits the anchored menu message with the updated
editor view plus an added/skipped suffix. Returns
`(new table, new session slot, report if the handler fired)`. -/
def msg_add (st : Store) (sess : Option Session) (user_id : Int) (text : String) :
    Store × Option Session × Option BulkReport :=
  match sess with
  | none => (st, none, none)
  | some s =>
    let r := addLoop user_id s.list_name st (surviving_lines text)
    (r.1, none, some ⟨s.list_name, s.menu_message_id, r.2.1, r.2.2⟩)

/-- The render outcome of `cb_do_remove`. -/
inductive RemoveOutcome where
  /-- `callback.data` had fewer than 3 `":"`-separated parts, or the index
  was not an integer: an error message is answered, nothing else happens. -/
  | malformed : RemoveOutcome
  /-- The index was out of range of the re-fetched view: the plain editor
  view is re-rendered, nothing is removed. -/
  | stale : RemoveOutcome
  /-- The word at the index was removed (suffix "Удалено.") or had already
  vanished (suffix "Не найдено"). -/
  | done : Bool → RemoveOutcome
deriving DecidableEq, Repr

/-- `cb_do_remove` (handler of `"do_remove:{list}:{index}"`): the parsed
index is `none` when `int(parts[2])` raised `ValueError` or the payload had
too few parts (both paths answer an error and touch nothing). Otherwise the
ordered view is re-fetched; an index out of `[0, len(words))` re-renders
the editor view without mutating; an in-range index resolves the word at
that position and calls `Storage.remove_word` on it. -/
def cb_do_remove (st : Store) (user_id : Int) (list_name : String) (idx : Option Int) :
    Store × RemoveOutcome :=
  match idx with
  | none => (st, .malformed)
  | some i =>
    let words := get_words st user_id list_name
    if h : i < 0 ∨ (words.length : Int) ≤ i then (st, .stale)
    else
      let word := words.get ⟨i.toNat, by omega⟩
      let r := remove_word st user_id list_name word
      (r.2, .done r.1)

/-! ## Global state and event step

The dispatcher routes each incoming update to exactly one handler. The
global state is the word table plus the per-user FSM slot; `step` performs
the state change of the matched handler. Handlers that only read
(`cb_roll`, `cb_remove_show_list`, `cb_remove_back`) leave the state
untouched. -/

/-- The bot's whole mutable state: the SQLite table and aiogram's per-user
FSM storage. -/
structure GState where
  store : Store
  sessions : Int → Option Session

/-- The inbound updates, each mapped by the dispatcher to one handler;
`user` is `from_user.id` of the update. Random draws of `cb_roll` and the
parsed index of `cb_do_remove` are carried in the event. -/
inductive Event where
  /-- `/start` → `cmd_start`. -/
  | startCmd (user : Int)
  /-- `/menu` → `cmd_menu`. -/
  | menuCmd (user : Int)
  /-- `"back"` → `cb_back`. -/
  | back (user : Int)
  /-- `"edit:{list}"` → `cb_edit`. -/
  | editOpen (user : Int) (list_name : String)
  /-- `"roll"` → `cb_roll`. -/
  | rollReq (user : Int) (ia ib : Nat)
  /-- `"add:{list}"` → `cb_add`. -/
  | addStart (user : Int) (list_name : String) (menu_message_id : Int)
  /-- A plain text message while `waiting_add` → `msg_add` (a text message
  with no live session matches no handler and changes nothing). -/
  | textSubmit (user : Int) (text : String)
  /-- `"remove:{list}"` → `cb_remove_show_list` (read-only). -/
  | removeShow (user : Int) (list_name : String)
  /-- `"remove_back:{list}"` → `cb_remove_back` (read-only). -/
  | removeBack (user : Int) (list_name : String)
  /-- `"do_remove:{list}:{index}"` → `cb_do_remove`. -/
  | doRemove (user : Int) (list_name : String) (idx : Option Int)
  /-- `"clear:{list}"` → `cb_clear`. -/
  | clearReq (user : Int) (list_name : String)

/-- Update one user's FSM slot. -/
def setSession (m : Int → Option Session) (user : Int) (s : Option Session) :
    Int → Option Session :=
  fun v => if v = user then s else m v

/-- One dispatcher round: the state change performed by the handler the
event is routed to. -/
def step (g : GState) : Event → GState
  | .startCmd u => ⟨g.store, setSession g.sessions u none⟩
  | .menuCmd u => ⟨g.store, setSession g.sessions u none⟩
  | .back u => ⟨g.store, setSession g.sessions u none⟩
  | .editOpen u _ => ⟨g.store, setSession g.sessions u none⟩
  | .rollReq _ _ _ => g
  | .addStart u l m => ⟨g.store, setSession g.sessions u (cb_add (g.sessions u) l m)⟩
  | .textSubmit u t =>
    let r := msg_add g.store (g.sessions u) u t
    ⟨r.1, setSession g.sessions u r.2.1⟩
  | .removeShow _ _ => g
  | .removeBack _ _ => g
  | .doRemove u l i => ⟨(cb_do_remove g.store u l i).1, g.sessions⟩
  | .clearReq u l => ⟨clear_list g.store u l, g.sessions⟩

/-- The bot starts with an empty `words` table (fresh `CREATE TABLE`) and
every user Idle. -/
def initialState : GState := ⟨[], fun _ => none⟩

/-- States reachable from the initial state by dispatching events. -/
inductive Reachable : GState → Prop where
  | init : Reachable initialState
  | step {g : GState} (e : Event) : Reachable g → Reachable (step g e)

/-! ## Basic lemmas about the storage layer -/

/-- The sorted view is a permutation of the raw filtered projection. -/
theorem get_words_perm (st : Store) (u : Int) (l : String) :
    List.Perm (get_words st u l)
      ((st.filter (fun e => e.user_id == u && e.list_name == l)).map Entry.word) :=
  @List.perm_insertionSort String (· ≤ ·) strLeDec _

/-- Occurrences of a word in the view count the matching rows of the table. -/
theorem get_words_count (st : Store) (u : Int) (l : String) (w : String) :
    (get_words st u l).count w = st.count ⟨u, l, w⟩ := by
  rw [(get_words_perm st u l).count_eq]
  induction st with
  | nil => rfl
  | cons e rest ih =>
    by_cases hm : e.user_id = u ∧ e.list_name = l
    · have hf : (e.user_id == u && e.list_name == l) = true := by
        simp [hm.1, hm.2]
      have hw : (e.word = w) ↔ (e = ⟨u, l, w⟩) := by
        cases e; simp_all
      simp only [List.filter_cons, hf, if_pos, List.map_cons, List.count_cons, ih]
      rcases Decidable.em (e.word = w) with h | h
      · simp [h, hw.mp h]
      · have hne : ¬ e = ⟨u, l, w⟩ := fun hc => h (hw.mpr hc)
        simp [h, hne]
    · have hf : (e.user_id == u && e.list_name == l) = false := by
        rcases Decidable.not_and_iff_or_not.mp hm with h | h <;> simp [h]
      have hne : e ≠ ⟨u, l, w⟩ := by
        intro hc; exact hm (by rw [hc]; exact ⟨rfl, rfl⟩)
      simp [List.filter_cons, hf, List.count_cons, hne, ih]

/-- A word is in the view exactly when the corresponding row is in the table. -/
theorem mem_get_words (st : Store) (u : Int) (l : String) (w : String) :
    w ∈ get_words st u l ↔ (⟨u, l, w⟩ : Entry) ∈ st := by
  rw [← List.count_pos_iff, ← List.count_pos_iff, get_words_count]

/-- `add_word` only looks at the stripped word. -/
theorem add_word_strip_congr (st : Store) (u : Int) (l : String) (w w₂ : String)
    (h : strip w₂ = strip w) : add_word st u l w₂ = add_word st u l w := by
  unfold add_word
  rw [h]

/-- C1, branch analysis of `add_word`. -/
theorem add_word_cases (st : Store) (u : Int) (l : String) (w : String) :
    (strip w = "" → add_word st u l w = (false, st)) ∧
    ((⟨u, l, strip w⟩ : Entry) ∈ st → add_word st u l w = (false, st)) ∧
    (strip w ≠ "" → (⟨u, l, strip w⟩ : Entry) ∉ st →
      add_word st u l w = (true, ⟨u, l, strip w⟩ :: st)) := by
  refine ⟨fun h => ?_, fun h => ?_, fun h h₂ => ?_⟩ <;>
    simp [add_word, h]
  simp [h₂]

/-- C1: `add_word` strips surrounding whitespace from the word; it returns
`False` and leaves the table unchanged when the stripped result is empty or
when the `(user_id, list_name, stripped word)` row already exists, and
otherwise inserts the stripped word and returns `True`; consequently adding
`" foo "` and adding `"foo"` behave identically and collide with each
other (after either add succeeds, a further add of any spelling with the
same stripped form is rejected without mutation). -/
theorem C1_add_word_trims_rejects_inserts (st : Store) (u : Int) (l : String) (w : String) :
    (∀ w₂, strip w₂ = strip w → add_word st u l w₂ = add_word st u l w) ∧
    (strip w = "" → add_word st u l w = (false, st)) ∧
    ((⟨u, l, strip w⟩ : Entry) ∈ st → add_word st u l w = (false, st)) ∧
    (strip w ≠ "" → (⟨u, l, strip w⟩ : Entry) ∉ st →
      add_word st u l w = (true, ⟨u, l, strip w⟩ :: st)) ∧
    (strip w ≠ "" → ∀ w₂, strip w₂ = strip w →
      add_word (add_word st u l w).2 u l w₂ = (false, (add_word st u l w).2)) := by
  refine ⟨fun w₂ h => add_word_strip_congr st u l w w₂ h,
    (add_word_cases st u l w).1, (add_word_cases st u l w).2.1,
    (add_word_cases st u l w).2.2, fun hne w₂ hw₂ => ?_⟩
  by_cases hmem : (⟨u, l, strip w⟩ : Entry) ∈ st
  · simp [add_word, hne, hmem, hw₂]
  · simp [add_word, hne, hmem, hw₂]

/-- Witness for C1 at concrete inputs: `add(" foo ")` on an empty store
inserts `"foo"`, and `add("foo")` then collides with it. -/
theorem C1_witness :
    add_word [] 1 "A" " foo " = (true, [⟨1, "A", "foo"⟩]) ∧
    add_word [⟨1, "A", "foo"⟩] 1 "A" "foo" = (false, [⟨1, "A", "foo"⟩]) := by
  have h1 := (C1_add_word_trims_rejects_inserts ([] : Store) 1 "A" " foo ").2.2.2.1
    (by decide) (by decide)
  have h2 := (C1_add_word_trims_rejects_inserts [⟨1, "A", "foo"⟩] 1 "A" "foo").2.2.1
    (by decide)
  have hs : strip " foo " = "foo" := by decide
  rw [hs] at h1
  exact ⟨h1, h2⟩

/-- C6: `remove_word` strips the input; when the matching row is present it
deletes it and returns `True`, when absent it returns `False` and leaves
the table unchanged; removal is idempotent — removing the same present word
twice yields `True` then `False` — and no other row is deleted. -/
theorem C6_remove_word_idempotent (st : Store) (u : Int) (l : String) (w : String) :
    ((⟨u, l, strip w⟩ : Entry) ∈ st →
      (remove_word st u l w).1 = true ∧
      (⟨u, l, strip w⟩ : Entry) ∉ (remove_word st u l w).2 ∧
      (remove_word (remove_word st u l w).2 u l w).1 = false) ∧
    ((⟨u, l, strip w⟩ : Entry) ∉ st → remove_word st u l w = (false, st)) ∧
    (∀ e, e ∈ st → e ≠ (⟨u, l, strip w⟩ : Entry) → e ∈ (remove_word st u l w).2) := by
  refine ⟨fun h => ⟨?_, ?_, ?_⟩, fun h => ?_, fun e he hne => ?_⟩
  · simp [remove_word, h]
  · simp [remove_word]
  · simp [remove_word]
  · have hall : st.filter (fun e => e != (⟨u, l, strip w⟩ : Entry)) = st :=
      List.filter_eq_self.mpr (fun e he => by
        simp only [bne_iff_ne, ne_eq, decide_eq_true_eq]
        intro hc
        exact h (hc ▸ he))
    simp [remove_word, h, hall]
  · exact List.mem_filter.mpr ⟨he, by simp [bne_iff_ne, hne]⟩

/-- Witness for C6 at concrete inputs: removing `"x"` succeeds once and
reports `False` the second time; removing an absent word changes nothing. -/
theorem C6_witness :
    (remove_word [⟨1, "A", "x"⟩] 1 "A" "x").1 = true ∧
    (remove_word (remove_word [⟨1, "A", "x"⟩] 1 "A" "x").2 1 "A" "x").1 = false ∧
    remove_word [⟨1, "A", "x"⟩] 1 "A" "y" = (false, [⟨1, "A", "x"⟩]) := by
  have h1 := (C6_remove_word_idempotent [⟨1, "A", "x"⟩] 1 "A" "x").1 (by decide)
  have h2 := (C6_remove_word_idempotent [⟨1, "A", "x"⟩] 1 "A" "y").2.1 (by decide)
  exact ⟨h1.1, h1.2.2, h2⟩

/-- C7: the view `get_words` is sorted ascending, has no duplicates (the
table never holds two identical rows, see the reachability invariant), it
is total, and a `(user_id, list_name)` pair with no rows yields `[]`. -/
theorem C7_get_words_sorted_nodup (st : Store) (u : Int) (l : String) :
    List.Sorted (· ≤ ·) (get_words st u l) ∧
    (st.Nodup → (get_words st u l).Nodup) ∧
    ((∀ e ∈ st, ¬(e.user_id = u ∧ e.list_name = l)) → get_words st u l = []) := by
  refine ⟨@List.sorted_insertionSort String (· ≤ ·) strLeDec inferInstance inferInstance _,
    fun h => ?_, fun h => ?_⟩
  · refine ((get_words_perm st u l).nodup_iff).mpr ?_
    refine List.Nodup.map_on ?_ (h.filter _)
    intro x hx y hy hxy
    have hx' := List.mem_filter.mp hx
    have hy' := List.mem_filter.mp hy
    simp only [Bool.and_eq_true, beq_iff_eq] at hx' hy'
    cases x; cases y
    simp_all
  · unfold get_words
    have hnil : st.filter (fun e => e.user_id == u && e.list_name == l) = [] := by
      refine List.filter_eq_nil_iff.mpr (fun e he => ?_)
      simp only [Bool.and_eq_true, beq_iff_eq, not_and]
      intro h1 h2
      exact h e he ⟨h1, h2⟩
    rw [hnil]
    rfl

/-- Witness for C7 at concrete inputs: a two-row table is listed sorted and
duplicate-free, and a user with no rows gets the empty sequence. -/
theorem C7_witness :
    (get_words [⟨1, "A", "b"⟩, ⟨1, "A", "a"⟩] 1 "A").Nodup ∧
    get_words [⟨2, "A", "x"⟩] 1 "A" = [] := by
  have h1 := (C7_get_words_sorted_nodup [⟨1, "A", "b"⟩, ⟨1, "A", "a"⟩] 1 "A").2.1 (by decide)
  have h2 := (C7_get_words_sorted_nodup [⟨2, "A", "x"⟩] 1 "A").2.2 (by decide)
  exact ⟨h1, h2⟩

/-- Tallies of the bulk-add loop always account for every processed line. -/
theorem addLoop_count (u : Int) (l : String) :
    ∀ (lines : List String) (st : Store),
      (addLoop u l st lines).2.1 + (addLoop u l st lines).2.2 = lines.length := by
  intro lines
  induction lines with
  | nil => intro st; rfl
  | cons line rest ih =>
    intro st
    have h := ih (add_word st u l line).2
    simp only [addLoop, List.length_cons]
    split <;> dsimp only <;> omega

/-- C3: `roll` returns `(None, None)` exactly when list A or list B of the
user is empty; otherwise it returns a member of list A and a member of
list B, and when both lists are singletons the result is deterministic
(independent of the random draws). -/
theorem C3_roll_pair (st : Store) (u : Int) (ia ib : Nat) :
    (roll st u ia ib = (none, none) ↔
      get_words st u "A" = [] ∨ get_words st u "B" = []) ∧
    (get_words st u "A" ≠ [] → get_words st u "B" ≠ [] →
      ∃ a b, roll st u ia ib = (some a, some b) ∧
        a ∈ get_words st u "A" ∧ b ∈ get_words st u "B") ∧
    (∀ x y, get_words st u "A" = [x] → get_words st u "B" = [y] →
      roll st u ia ib = (some x, some y)) := by
  by_cases ha : get_words st u "A" = []
  · refine ⟨⟨fun _ => Or.inl ha, fun _ => ?_⟩,
      fun ha' _ => absurd ha ha', fun x y hx _ => ?_⟩
    · simp [roll, ha]
    · rw [hx] at ha
      cases ha
  · by_cases hb : get_words st u "B" = []
    · refine ⟨⟨fun _ => Or.inr hb, fun _ => ?_⟩,
        fun _ hb' => absurd hb hb', fun x y _ hy => ?_⟩
      · simp [roll, hb]
      · rw [hy] at hb
        cases hb
    · have hla : 0 < (get_words st u "A").length := List.length_pos.mpr ha
      have hlb : 0 < (get_words st u "B").length := List.length_pos.mpr hb
      have hia : ia % (get_words st u "A").length < (get_words st u "A").length :=
        Nat.mod_lt _ hla
      have hib : ib % (get_words st u "B").length < (get_words st u "B").length :=
        Nat.mod_lt _ hlb
      have hroll : roll st u ia ib =
          (some ((get_words st u "A").get ⟨ia % (get_words st u "A").length, hia⟩),
           some ((get_words st u "B").get ⟨ib % (get_words st u "B").length, hib⟩)) := by
        simp [roll, List.isEmpty_iff, ha, hb, List.getElem?_eq_getElem, hia, hib]
      refine ⟨⟨fun hc => ?_, fun hc => ?_⟩, fun _ _ => ?_, fun x y hx hy => ?_⟩
      · rw [hroll] at hc
        cases hc
      · cases hc with
        | inl h => exact absurd h ha
        | inr h => exact absurd h hb
      · exact ⟨_, _, hroll, List.get_mem _ _ hia, List.get_mem _ _ hib⟩
      · simp [roll, hx, hy, Nat.mod_one]

/-- Witness for C3 at a concrete store: with A = ["Naruto"] and
B = ["Betrayal"] the roll is deterministically that pair. -/
theorem C3_witness :
    roll [⟨1, "A", "Naruto"⟩, ⟨1, "B", "Betrayal"⟩] 1 5 9 =
      (some "Naruto", some "Betrayal") :=
  (C3_roll_pair [⟨1, "A", "Naruto"⟩, ⟨1, "B", "Betrayal"⟩] 1 5 9).2.2
    "Naruto" "Betrayal" (by decide) (by decide)

/-- C4: bulk add splits the submitted text into lines, strips each, drops
blank lines without counting them, adds each surviving line in order, and
reports `added` + `skipped` equal to the number of lines that strip to
non-empty; in particular the submission "x\n\n  \nx\ny" into an empty list
yields added = 2, skipped = 1 and the table holds exactly x and y. -/
theorem C4_bulk_add_tallies :
    (∀ (st : Store) (u : Int) (l : String) (anchor : Int) (text : String),
      ∃ rep : BulkReport,
        (msg_add st (some ⟨l, anchor⟩) u text).2.2 = some rep ∧
        rep.list_name = l ∧ rep.anchor = anchor ∧
        rep.added + rep.skipped =
          ((splitlines text).filter (fun s => strip s ≠ "")).length) ∧
    msg_add ([] : Store) (some ⟨"A", (7 : Int)⟩) 1 "x\n\n  \nx\ny" =
      ([⟨1, "A", "y"⟩, ⟨1, "A", "x"⟩], none, some ⟨"A", 7, 2, 1⟩) := by
  refine ⟨fun st u l anchor text => ⟨_, rfl, rfl, rfl, ?_⟩, by decide⟩
  show (addLoop u l st (surviving_lines text)).2.1 +
      (addLoop u l st (surviving_lines text)).2.2 = _
  rw [addLoop_count]
  unfold surviving_lines
  rw [List.filter_map]
  simp [Function.comp_def]

/-- C5: removal-by-position re-fetches the ordered view; a malformed index
or one out of range of the re-fetched view mutates nothing and yields a
benign outcome, and an in-range index resolves the word at that position
and calls `remove_word` on it. -/
theorem C5_remove_by_position (st : Store) (u : Int) (l : String) :
    cb_do_remove st u l none = (st, RemoveOutcome.malformed) ∧
    (∀ i : Int, i < 0 ∨ ((get_words st u l).length : Int) ≤ i →
      cb_do_remove st u l (some i) = (st, RemoveOutcome.stale)) ∧
    (∀ i : Int, ∀ w, ¬(i < 0 ∨ ((get_words st u l).length : Int) ≤ i) →
      (get_words st u l)[i.toNat]? = some w →
      cb_do_remove st u l (some i) =
        ((remove_word st u l w).2, RemoveOutcome.done (remove_word st u l w).1)) := by
  refine ⟨rfl, fun i h => ?_, fun i w h hw => ?_⟩
  · simp only [cb_do_remove]
    rw [dif_pos h]
  · simp only [cb_do_remove]
    rw [dif_neg h]
    have hlt : i.toNat < (get_words st u l).length := by omega
    have hget : (get_words st u l).get ⟨i.toNat, hlt⟩ = w := by
      rw [List.getElem?_eq_getElem hlt] at hw
      exact Option.some_injective _ hw
    simp only [hget]

/-- Witness for C5 at a concrete store: index 5 into the one-word list "A"
is a no-op, index 0 removes the word. -/
theorem C5_witness :
    cb_do_remove [⟨1, "A", "x"⟩] 1 "A" (some 5) = ([⟨1, "A", "x"⟩], RemoveOutcome.stale) ∧
    cb_do_remove [⟨1, "A", "x"⟩] 1 "A" (some 0) = ([], RemoveOutcome.done true) := by
  have h1 := (C5_remove_by_position [⟨1, "A", "x"⟩] 1 "A").2.1 5 (by decide)
  have h2 := (C5_remove_by_position [⟨1, "A", "x"⟩] 1 "A").2.2 0 "x" (by decide) (by decide)
  have hr : remove_word [⟨1, "A", "x"⟩] 1 "A" "x" = (true, []) := by decide
  rw [hr] at h2
  exact ⟨h1, h2⟩

/-! ## Preservation of the primary-key invariant -/

/-- `add_word` never duplicates a row. -/
theorem add_word_nodup (st : Store) (u : Int) (l : String) (w : String)
    (h : st.Nodup) : ((add_word st u l w).2).Nodup := by
  by_cases h1 : strip w = ""
  · rw [(add_word_cases st u l w).1 h1]
    exact h
  · by_cases h2 : (⟨u, l, strip w⟩ : Entry) ∈ st
    · rw [(add_word_cases st u l w).2.1 h2]
      exact h
    · rw [(add_word_cases st u l w).2.2 h1 h2]
      exact List.nodup_cons.mpr ⟨h2, h⟩

/-- The bulk-add loop never duplicates a row. -/
theorem addLoop_nodup (u : Int) (l : String) :
    ∀ (lines : List String) (st : Store), st.Nodup → ((addLoop u l st lines).1).Nodup := by
  intro lines
  induction lines with
  | nil => intro st h; exact h
  | cons line rest ih =>
    intro st h
    simp only [addLoop]
    split <;> dsimp only <;> exact ih _ (add_word_nodup st u l line h)

/-- Each dispatcher round preserves the primary-key invariant of the table. -/
theorem step_nodup (g : GState) (e : Event) (h : g.store.Nodup) :
    ((step g e).store).Nodup := by
  cases e with
  | textSubmit u t =>
    show ((msg_add g.store (g.sessions u) u t).1).Nodup
    cases g.sessions u with
    | none => exact h
    | some s => exact addLoop_nodup u s.list_name _ g.store h
  | doRemove u l i =>
    show ((cb_do_remove g.store u l i).1).Nodup
    cases i with
    | none => exact h
    | some j =>
      simp only [cb_do_remove]
      split
      · exact h
      · exact h.filter _
  | clearReq u l => exact h.filter _
  | startCmd u => exact h
  | menuCmd u => exact h
  | back u => exact h
  | editOpen u l => exact h
  | rollReq u ia ib => exact h
  | addStart u l m => exact h
  | removeShow u l => exact h
  | removeBack u l => exact h

/-- Every reachable table satisfies the primary-key invariant. -/
theorem reachable_nodup (g : GState) (h : Reachable g) : g.store.Nodup := by
  induction h with
  | init => exact List.nodup_nil
  | step e _ ih => exact step_nodup _ e ih

/-- C2: uniqueness is an invariant — no reachable table holds two identical
`(user_id, list_name, word)` rows — and adding the same stripped word twice
to the same user and list succeeds the first time, is rejected the second
time, and the view afterwards holds exactly one copy of it. -/
theorem C2_uniqueness_invariant (st : Store) (u : Int) (l : String) (w : String)
    (hw : strip w ≠ "") (hm : (⟨u, l, strip w⟩ : Entry) ∉ st) :
    (∀ g : GState, Reachable g → g.store.Nodup) ∧
    (add_word st u l w).1 = true ∧
    (add_word (add_word st u l w).2 u l w).1 = false ∧
    (get_words (add_word st u l w).2 u l).count (strip w) = 1 := by
  have heq := (add_word_cases st u l w).2.2 hw hm
  refine ⟨reachable_nodup, by rw [heq], ?_, ?_⟩
  · rw [heq]
    rw [(add_word_cases (⟨u, l, strip w⟩ :: st) u l w).2.1 (List.mem_cons_self _ _)]
  · rw [heq]
    show (get_words (⟨u, l, strip w⟩ :: st) u l).count (strip w) = 1
    rw [get_words_count, List.count_cons_self, List.count_eq_zero.mpr hm]

/-- Witness for C2 at concrete inputs: adding `" x "` twice to an empty
store leaves exactly one copy of `"x"`. -/
theorem C2_witness :
    (add_word ([] : Store) 1 "A" " x ").1 = true ∧
    (add_word (add_word ([] : Store) 1 "A" " x ").2 1 "A" " x ").1 = false ∧
    (get_words (add_word ([] : Store) 1 "A" " x ").2 1 "A").count (strip " x ") = 1 := by
  have h := C2_uniqueness_invariant ([] : Store) 1 "A" " x " (by decide) (by decide)
  exact ⟨h.2.1, h.2.2.1, h.2.2.2⟩

/-- C8: at most one edit session is live per user (the FSM holds one
optional slot), and a second "start add" replaces the first outright: the
resulting slot carries only the second target list and anchor, and a
subsequent submission is processed against the second session's list and
edits the second session's anchor message, regardless of the first
session or any earlier one. -/
theorem C8_last_writer_wins (g : GState) (u : Int) (l1 l2 : String) (m1 m2 : Int)
    (st : Store) (text : String) (prev : Option Session) :
    (step (step g (.addStart u l1 m1)) (.addStart u l2 m2)).sessions u =
      some ⟨l2, m2⟩ ∧
    msg_add st (cb_add (cb_add prev l1 m1) l2 m2) u text =
      msg_add st (some ⟨l2, m2⟩) u text ∧
    (msg_add st (some ⟨l2, m2⟩) u text).1 =
      (addLoop u l2 st (surviving_lines text)).1 ∧
    (msg_add st (some ⟨l2, m2⟩) u text).2.2 =
      some ⟨l2, m2, (addLoop u l2 st (surviving_lines text)).2.1,
        (addLoop u l2 st (surviving_lines text)).2.2⟩ := by
  refine ⟨?_, rfl, rfl, rfl⟩
  simp [step, setSession, cb_add]

/-- C9: the per-user session leaves AwaitingText only on a text submission,
an explicit back/navigate-away intent (`back`, `/start`, `/menu`, opening a
list editor), or a new "start add"; each of the former always returns the
user to Idle and the latter installs the fresh session, so after processing
a submission the user's session is always Idle. -/
theorem C9_session_state_machine :
    (∀ (g : GState) (u : Int) (t : String), (step g (.textSubmit u t)).sessions u = none) ∧
    (∀ (g : GState) (u : Int), (step g (.back u)).sessions u = none) ∧
    (∀ (g : GState) (u : Int), (step g (.startCmd u)).sessions u = none) ∧
    (∀ (g : GState) (u : Int), (step g (.menuCmd u)).sessions u = none) ∧
    (∀ (g : GState) (u : Int) (l : String), (step g (.editOpen u l)).sessions u = none) ∧
    (∀ (g : GState) (u : Int) (l : String) (m : Int),
      (step g (.addStart u l m)).sessions u = some ⟨l, m⟩) ∧
    (∀ (g : GState) (e : Event) (u : Int), (step g e).sessions u ≠ g.sessions u →
      (∃ t, e = .textSubmit u t) ∨ e = .back u ∨ e = .startCmd u ∨ e = .menuCmd u ∨
      (∃ l, e = .editOpen u l) ∨ (∃ l m, e = .addStart u l m)) := by
  refine ⟨?_, ?_, ?_, ?_, ?_, ?_, ?_⟩
  · intro g u t
    cases h : g.sessions u <;> simp [step, setSession, msg_add, h]
  · intro g u; simp [step, setSession]
  · intro g u; simp [step, setSession]
  · intro g u; simp [step, setSession]
  · intro g u l; simp [step, setSession]
  · intro g u l m; simp [step, setSession, cb_add]
  · intro g e u hne
    cases e with
    | startCmd v =>
      by_cases h : u = v
      · subst h; exact Or.inr (Or.inr (Or.inl rfl))
      · exact absurd (by simp [step, setSession, h]) hne
    | menuCmd v =>
      by_cases h : u = v
      · subst h; exact Or.inr (Or.inr (Or.inr (Or.inl rfl)))
      · exact absurd (by simp [step, setSession, h]) hne
    | back v =>
      by_cases h : u = v
      · subst h; exact Or.inr (Or.inl rfl)
      · exact absurd (by simp [step, setSession, h]) hne
    | editOpen v l =>
      by_cases h : u = v
      · subst h; exact Or.inr (Or.inr (Or.inr (Or.inr (Or.inl ⟨l, rfl⟩))))
      · exact absurd (by simp [step, setSession, h]) hne
    | addStart v l m =>
      by_cases h : u = v
      · subst h; exact Or.inr (Or.inr (Or.inr (Or.inr (Or.inr ⟨l, m, rfl⟩))))
      · exact absurd (by simp [step, setSession, h]) hne
    | textSubmit v t =>
      by_cases h : u = v
      · subst h; exact Or.inl ⟨t, rfl⟩
      · exact absurd (by simp [step, setSession, h]) hne
    | rollReq v ia ib => exact absurd rfl hne
    | removeShow v l => exact absurd rfl hne
    | removeBack v l => exact absurd rfl hne
    | doRemove v l i => exact absurd rfl hne
    | clearReq v l => exact absurd rfl hne

/-- Witness for C9 at a concrete state: a user with a live session who
presses back is returned to Idle, and the only way the change could have
happened is one of the listed events. -/
theorem C9_witness :
    (step ⟨[], fun _ => some ⟨"A", 0⟩⟩ (.back 1)).sessions 1 = none ∧
    ((∃ t, Event.back 1 = .textSubmit 1 t) ∨ Event.back 1 = .back 1 ∨
      Event.back 1 = .startCmd 1 ∨ Event.back 1 = .menuCmd 1 ∨
      (∃ l, Event.back 1 = .editOpen 1 l) ∨
      (∃ l m, Event.back 1 = .addStart 1 l m)) := by
  refine ⟨C9_session_state_machine.2.1 ⟨[], fun _ => some ⟨"A", 0⟩⟩ 1, ?_⟩
  refine C9_session_state_machine.2.2.2.2.2.2 ⟨[], fun _ => some ⟨"A", 0⟩⟩ (.back 1) 1 ?_
  have h := C9_session_state_machine.2.1 ⟨[], fun _ => some ⟨"A", 0⟩⟩ 1
  rw [h]
  simp

/-- C10: `cb_roll` only reads: a roll leaves the word table untouched, so
every user's every list reads back identically after it. -/
theorem C10_roll_is_readonly (g : GState) (u : Int) (ia ib : Nat) :
    (step g (.rollReq u ia ib)).store = g.store ∧
    ∀ (v : Int) (l : String),
      get_words (step g (.rollReq u ia ib)).store v l = get_words g.store v l :=
  ⟨rfl, fun _ _ => rfl⟩
